import Mathlib

/-!
Shallow embedding of the GitPins repository-order synchronization and
history-rewrite engine.

The embedding follows the TypeScript source:
* `cleanupRepoCommitsAutomatic` — the history rewriter (cleanup helper module);
* `checkRateLimit` — the fixed-window in-memory rate limiter (rate-limit module);
* `isRepoOrderCorrect`, the repository-name validator, the per-repository
  loop and the run-status computation — the sync API route
  (`src/app/api/sync/[secret]/route.ts`).

Remote git objects are modelled explicitly: a commit is a record with a sha,
message, tree sha, parent shas, author and committer; the GitHub API calls the
engine performs are recorded as a trace of `GitOp` values so that ordering
properties ("backup before any mutation", "zero mutating calls when skipped")
can be stated.  Shas are natural numbers; fresh shas handed out by
"createCommit" are modelled by a counter.
-/

namespace GitPins

/-- `leadsWith pat l` : does the char list `l` start with `pat`?
(Embeds the substring test used by `String.prototype.includes`.) -/
def leadsWith : List Char → List Char → Bool
  | [], _ => true
  | _ :: _, [] => false
  | a :: as, b :: bs => a == b && leadsWith as bs

/-- `occursIn pat l` : does `pat` occur contiguously anywhere in `l`? -/
def occursIn (pat : List Char) : List Char → Bool
  | [] => leadsWith pat []
  | c :: rest => leadsWith pat (c :: rest) || occursIn pat rest

/-- `message.includes('[GitPins]')` from the source: the synthetic-commit
marker test used both by the strategies and by the cleanup helper. -/
def includesMarker (msg : String) : Bool :=
  occursIn "[GitPins]".toList msg.toList

/-- A read view of a remote commit object (`CommitRecord` of the data model):
sha, message, tree sha, parent shas, author, committer. -/
structure Commit where
  sha : Nat
  message : String
  tree : Nat
  parents : List Nat
  author : String
  committer : String
deriving DecidableEq

/-- A mutating remote call performed by the engine, as recorded in a trace. -/
inductive GitOp where
  | createRef (name : String) (sha : Nat)
  | createCommit (c : Commit)
  | updateRef (name : String) (sha : Nat) (force : Bool)
deriving DecidableEq

/-- Is a trace entry a branch-reference creation? -/
def GitOp.isCreateRef : GitOp → Bool
  | .createRef _ _ => true
  | _ => false

/-- Is a trace entry a commit-object creation? -/
def GitOp.isCreateCommit : GitOp → Bool
  | .createCommit _ => true
  | _ => false

/-- Is a trace entry a branch-reference update? -/
def GitOp.isUpdateRef : GitOp → Bool
  | .updateRef _ _ _ => true
  | _ => false

/-- Look a commit up by sha in a list of commits (`commits.find(c => c.sha === s)`). -/
def findCommit (store : List Commit) (s : Nat) : Option Commit :=
  store.find? (fun c => c.sha == s)

/-- `commitMapping.get(sha)` : the original-sha → new-sha map, as an
association list built left to right. -/
def lookupMap (m : List (Nat × Nat)) (s : Nat) : Option Nat :=
  (m.find? (fun p => p.1 == s)).map (fun p => p.2)

/-- `commits.find(c => c.sha === p && c.commit.message.includes('[GitPins]'))`
from the cleanup helper: is sha `p` present in the fetched window as a
marked (synthetic) commit? -/
def markedInList (window : List Commit) (p : Nat) : Bool :=
  window.any (fun c => c.sha == p && includesMarker c.message)

/-- One remapped parent step of the cleanup walk: fold the original parent
list into the new parent list (mapped parent if present; original sha kept
when the parent is outside the window or not marked; dropped otherwise). -/
def remapParents (window : List Commit) (m : List (Nat × Nat))
    (parents : List Nat) : List Nat :=
  parents.foldl
    (fun acc p =>
      match lookupMap m p with
      | some np => acc ++ [np]
      | none => if markedInList window p then acc else acc ++ [p])
    []

/-- The new parent list for one real commit in the cleanup walk: root commits
keep an empty list; otherwise parents are remapped, and if every parent was
dropped and some real commit was already recreated, that commit becomes the
sole parent (the fallback that re-links history across marked commits). -/
def newParentsFor (window : List Commit) (m : List (Nat × Nat))
    (last : Option Nat) (parents : List Nat) : List Nat :=
  if parents.isEmpty then []
  else
    let mapped := remapParents window m parents
    if mapped.isEmpty then
      match last with
      | some l => [l]
      | none => mapped
    else mapped

/-- The oldest-to-newest walk of `cleanupRepoCommitsAutomatic` (step 5 of the
source): skip marked commits, recreate real ones with remapped parents,
handing out fresh shas from the counter `next`.  Returns the recreated
commits in creation order and the sha of the last recreated commit. -/
def walkAux (window : List Commit) :
    List Commit → List (Nat × Nat) → Option Nat → Nat → List Commit × Option Nat
  | [], _, last, _ => ([], last)
  | c :: rest, m, last, next =>
    if includesMarker c.message then walkAux window rest m last next
    else
      let base := newParentsFor window m last c.parents
      let res := walkAux window rest (m ++ [(c.sha, next)]) (some next) (next + 1)
      (⟨next, c.message, c.tree, base, c.author, c.committer⟩ :: res.1, res.2)

/-- The result record of `cleanupRepoCommitsAutomatic`. -/
structure CleanupResult where
  status : String
  method : String
  removedCommits : Option Nat
  newHead : Option Nat
  errMsg : Option String
deriving DecidableEq

/-- `cleanupRepoCommitsAutomatic` of the cleanup helper, over a fetched
window of commits (newest first, as `listCommits` returns them).

`backupOk` models whether the `createRef` call for the backup branch
succeeds; `freshBase` is the first fresh sha handed out to recreated
commits.  The second component is the trace of mutating remote calls that
actually took effect, in order. -/
def cleanupRepoCommitsAutomatic (window : List Commit) (backupOk : Bool)
    (defaultBranch backupName : String) (freshBase : Nat) :
    CleanupResult × List GitOp :=
  let gitpins := window.filter (fun c => includesMarker c.message)
  if gitpins.length == 0 then
    (⟨"success", "none", some 0, none, some "No GitPins commits found"⟩, [])
  else
    match window with
    | [] => (⟨"error", "none", none, none, some "Unknown error"⟩, [])
    | c0 :: _ =>
      if !backupOk then
        (⟨"error", "none", none, none, some "Failed to create backup branch"⟩, [])
      else
        let walked := walkAux window window.reverse [] none freshBase
        let createOps := walked.1.map GitOp.createCommit
        match walked.2 with
        | none =>
          (⟨"error", "none", none, none,
            some "No non-GitPins commits found to recreate"⟩,
           GitOp.createRef backupName c0.sha :: createOps)
        | some last =>
          (⟨"success", "rewrite", some gitpins.length, some last, none⟩,
           GitOp.createRef backupName c0.sha ::
             (createOps ++ [GitOp.updateRef ("heads/" ++ defaultBranch) last true]))

/-- Commits reachable from sha `s` in `store`, by fuel-bounded descent
through parent lists.  Only shas that resolve in `store` are listed ("within
that window"). -/
def reachableIn (store : List Commit) : Nat → Nat → List Nat
  | 0, _ => []
  | fuel + 1, s =>
    match findCommit store s with
    | none => []
    | some c => s :: c.parents.flatMap (reachableIn store fuel)

/-- `RateLimitEntry` of the rate-limit module: request count and the unix
timestamp at which the window resets. -/
structure RateLimitEntry where
  count : Nat
  resetTime : Nat
deriving DecidableEq

/-- `RateLimitResult` of the rate-limit module. -/
structure RateLimitResult where
  success : Bool
  remaining : Nat
  resetTime : Nat
deriving DecidableEq

/-- The in-memory store `rateLimitStore`, as an association list. -/
def RateStore := List (String × RateLimitEntry)

/-- `rateLimitStore.get(identifier)`. -/
def lookupEntry (store : RateStore) (id : String) : Option RateLimitEntry :=
  (store.find? (fun p => p.1 == id)).map (fun p => p.2)

/-- `rateLimitStore.set(identifier, entry)` (replace or insert). -/
def setEntry (store : RateStore) (id : String) (e : RateLimitEntry) : RateStore :=
  (id, e) :: store.filter (fun p => !(p.1 == id))

/-- `checkRateLimit` of the rate-limit module, as a pure state transformer:
given the store and the current time, return the result and the new store.
`windowMs` and `maxRequests` are the fields of the config argument. -/
def checkRateLimit (store : RateStore) (now : Nat) (id : String)
    (windowMs maxRequests : Nat) : RateLimitResult × RateStore :=
  match lookupEntry store id with
  | none =>
    let newEntry : RateLimitEntry := ⟨1, now + windowMs⟩
    (⟨true, maxRequests - 1, newEntry.resetTime⟩, setEntry store id newEntry)
  | some entry =>
    if entry.resetTime < now then
      let newEntry : RateLimitEntry := ⟨1, now + windowMs⟩
      (⟨true, maxRequests - 1, newEntry.resetTime⟩, setEntry store id newEntry)
    else if maxRequests ≤ entry.count then
      (⟨false, 0, entry.resetTime⟩, store)
    else
      let newEntry : RateLimitEntry := ⟨entry.count + 1, entry.resetTime⟩
      (⟨true, maxRequests - newEntry.count, entry.resetTime⟩,
       setEntry store id newEntry)

/-- One character of the repository-name character class `[a-zA-Z0-9._-]`. -/
def validNameChar (c : Char) : Bool :=
  c.isAlphanum || c == '.' || c == '_' || c == '-'

/-- `isValidName` from the sync route: non-empty, at most 100 characters,
does not start with `.`, is not `.` or `..`, and matches `^[a-zA-Z0-9._-]+$`. -/
def isValidName (name : String) : Bool :=
  if name.length == 0 || 100 < name.length then false
  else if leadsWith ".".toList name.toList then false
  else if name == "." || name == ".." then false
  else name.toList.all validNameChar

/-- Validity of one segment of a `owner/repo` pair; a missing segment
(`undefined` after `split('/')` destructuring) is invalid. -/
def validSegment : Option String → Bool
  | none => false
  | some s => isValidName s

/-- Split a character list at every occurrence of `sep` (the semantics of
`String.prototype.split` with a single-character separator). -/
def splitOnChar (sep : Char) : List Char → List (List Char)
  | [] => [[]]
  | c :: cs =>
    match splitOnChar sep cs with
    | [] => [[c]]
    | seg :: rest =>
      if c == sep then [] :: seg :: rest else (c :: seg) :: rest

/-- `repoFullName.split('/')` followed by `[owner, repo]` destructuring. -/
def splitFullName (fullName : String) : Option String × Option String :=
  let parts := (splitOnChar '/' fullName.toList).map String.mk
  (parts[0]?, parts[1]?)

/-- Position-by-position comparison of the current top against the desired
top (the `for` loop of `isRepoOrderCorrect`): every desired position must
match the current entry at the same index. -/
def matchesAt : List String → List String → Bool
  | _, [] => true
  | [], _ :: _ => false
  | c :: cs, d :: ds => c == d && matchesAt cs ds

/-- `isRepoOrderCorrect` from the sync route: take the first `topN` of each
order, fail if the current top has fewer entries than the desired top,
otherwise compare position by position. -/
def isRepoOrderCorrect (currentOrder desiredOrder : List String) (topN : Nat) :
    Bool :=
  let currentTop := currentOrder.take topN
  let desiredTop := desiredOrder.take topN
  if currentTop.length < desiredTop.length then false
  else matchesAt currentTop desiredTop

/-- `reposOrderParsed.slice(0, repoOrder.topN || reposOrderParsed.length)`:
the repositories actually processed in a run; a falsy (zero) `topN` falls
back to the full length of the parsed desired order. -/
def reposToSyncOf (parsed : List String) (topN : Nat) : List String :=
  parsed.take (if topN == 0 then parsed.length else topN)

/-- Outcome of the immediate post-bump cleanup attempt for one repository
(abstracting the remote API): the helper returned `status: 'success'`,
returned a non-success status, or threw. -/
inductive CleanupOutcome where
  | ok
  | failed
  | threw
deriving DecidableEq

/-- Behaviour of one repository's bump (abstracting the remote API): the
multi-step bump threw at some step, or it succeeded and the subsequent
cleanup had the given outcome. -/
inductive BumpBehavior where
  | throws
  | ok (cleanup : CleanupOutcome)
deriving DecidableEq

/-- One entry of the `results` array of a run. -/
structure SyncResult where
  repo : String
  status : String
  errMsg : Option String
  cleaned : Option Bool
deriving DecidableEq

/-- The body of the per-repository loop of the sync route, for one
repository: validate both segments of the name, then run the bump; a bump
throw is caught and recorded as a generic error; after a successful bump the
repository is recorded as success, with `cleaned` true exactly when the
cleanup helper reported success. -/
def processOne (env : String → BumpBehavior) (fullName : String) : SyncResult :=
  let (owner, repo) := splitFullName fullName
  if !(validSegment owner) || !(validSegment repo) then
    ⟨fullName, "error", some "Invalid repository name format", none⟩
  else
    match env fullName with
    | .throws => ⟨fullName, "error", some "Operation failed", none⟩
    | .ok c => ⟨fullName, "success", none, some (c == CleanupOutcome.ok)⟩

/-- The per-repository loop: repositories are processed in reverse desired
order (`for (let i = reposToSync.length - 1; i >= 0; i--)`), each produced
result appended in processing order, one result per repository, no failure
blocking the rest. -/
def processRepos (env : String → BumpBehavior) (reposToSync : List String) :
    List SyncResult :=
  reposToSync.reverse.map (processOne env)

/-- Number of `success` results (`results.filter(r => r.status === 'success').length`). -/
def syncedCount (results : List SyncResult) : Nat :=
  (results.filter (fun r => r.status == "success")).length

/-- Number of `error` results (`results.filter(r => r.status === 'error').length`). -/
def failedCount (results : List SyncResult) : Nat :=
  (results.filter (fun r => r.status == "error")).length

/-- The persisted run status:
`results.every(r => r.status === 'success') ? 'success' : 'partial'`. -/
def runStatus (results : List SyncResult) : String :=
  if results.all (fun r => r.status == "success") then "success" else "partial"

/-- The HTTP response of a run, restricted to the fields the claims are
about. -/
structure SyncResponse where
  skipped : Bool
  message : Option String
  synced : Nat
  failed : Nat
  results : List SyncResult
deriving DecidableEq

/-- The sync route after authentication and configuration parsing: compute
the repositories to process, short-circuit when there are none or when the
order is already correct, otherwise run the per-repository loop.  The second
component is the trace of mutating remote calls of the run; `opsFor`
abstracts the calls a processed repository's bump and cleanup issue. -/
def syncAfterAuth (parsed : List String) (topN : Nat)
    (currentOrder : List String) (env : String → BumpBehavior)
    (opsFor : String → List GitOp) : SyncResponse × List GitOp :=
  let reposToSync := reposToSyncOf parsed topN
  if reposToSync.length == 0 then
    (⟨false, some "No repos to sync", 0, 0, []⟩, [])
  else if isRepoOrderCorrect currentOrder reposToSync topN then
    (⟨true, some "Repositories already in correct order. No sync needed.",
      0, 0, []⟩, [])
  else
    let rs := processRepos env reposToSync
    (⟨false, none, syncedCount rs, failedCount rs, rs⟩,
     reposToSync.reverse.flatMap opsFor)

/-- A repository's remote state for the strategy executor: the object store
and the sha the default branch points at. -/
structure RepoState where
  commits : List Commit
  head : Nat
deriving DecidableEq

/-- The tree sha of the commit the branch currently points at. -/
def treeOfHead (st : RepoState) : Option Nat :=
  (findCommit st.commits st.head).map (fun c => c.tree)

/-- The Revert strategy of the sync route for one repository: read the HEAD
commit's tree, create an empty commit with the same tree and parent = HEAD,
advance the branch, create a second commit with the original tree and parent
= the first new commit, and advance the branch again.  `none` models the
bump throwing because HEAD does not resolve; `fresh` and `fresh + 1` are the
shas of the two created commits. -/
def revertBump (st : RepoState) (branch : String) (pos total : Nat)
    (fresh : Nat) : Option (RepoState × List GitOp) :=
  match findCommit st.commits st.head with
  | none => none
  | some headC =>
    let c1 : Commit :=
      ⟨fresh, "[GitPins] Position: " ++ toString pos ++ "/" ++ toString total,
       headC.tree, [st.head], "", ""⟩
    let c2 : Commit := ⟨fresh + 1, "[GitPins] Revert", headC.tree, [c1.sha], "", ""⟩
    some (⟨st.commits ++ [c1, c2], c2.sha⟩,
      [GitOp.createCommit c1, GitOp.updateRef ("heads/" ++ branch) c1.sha false,
       GitOp.createCommit c2, GitOp.updateRef ("heads/" ++ branch) c2.sha false])

/-- Validity of a full `owner/repo` name: both segments of the split pass
`isValidName`. -/
def validFullName (fullName : String) : Bool :=
  validSegment (splitFullName fullName).1 && validSegment (splitFullName fullName).2

/-- The commit objects created during a trace, in creation order. -/
def createdOf (trace : List GitOp) : List Commit :=
  trace.filterMap (fun op => match op with
    | GitOp.createCommit c => some c
    | _ => none)

/-- `[s, s+1, ..., s+m-1]` : consecutive shas, used to describe the fresh
shas handed out to recreated commits. -/
def seqFrom : Nat → Nat → List Nat
  | _, 0 => []
  | s, m + 1 => s :: seqFrom (s + 1) m

/-- Message of a canonical linear-window commit: marked commits carry the
synthetic marker, real ones do not. -/
def chainMsg (marked : Bool) : String :=
  if marked then "[GitPins] pin" else "work"

/-- The canonical linear chain of commits described by a list of
marked/real flags (oldest first): commit `i` has sha `i`, tree `i`, and its
sole parent is the previous commit (the oldest commit is a root). -/
def chainAux : Nat → Option Nat → List Bool → List Commit
  | _, _, [] => []
  | idx, prev, f :: fs =>
    ⟨idx, chainMsg f, idx, prev.toList, "a", "a"⟩ :: chainAux (idx + 1) (some idx) fs

/-- A linear fetched history window (newest first, as `listCommits` returns
it) whose commits follow the marked/real pattern `flags` (oldest first). -/
def linWindow (flags : List Bool) : List Commit :=
  (chainAux 0 none flags).reverse

/-- The expected output of the cleanup walk on a canonical linear chain:
marked commits are dropped; each recreated commit takes the next fresh sha
and has the previously recreated commit (if any) as sole parent. -/
def expWalk : Nat → Option Nat → Nat → List Bool → List Commit × Option Nat
  | _, last, _, [] => ([], last)
  | idx, last, next, true :: fs => expWalk (idx + 1) last next fs
  | idx, last, next, false :: fs =>
    let res := expWalk (idx + 1) (some next) (next + 1) fs
    (⟨next, chainMsg false, idx, last.toList, "a", "a"⟩ :: res.1, res.2)

/-!
## Helper lemmas
-/

lemma lookupEntry_setEntry (s : RateStore) (id : String) (e : RateLimitEntry) :
    lookupEntry (setEntry s id e) id = some e := by
  simp [lookupEntry, setEntry, List.find?]

/-!
## C9 — rate limiter fixed-window behaviour
-/

/-- C9: with `maxRequests = 2` and `windowMs = 60000`, for any key with no
stored entry, the first two calls within one window return `allowed = true`
with `remaining` 1 then 0, a third call in the same window returns
`allowed = false` with `remaining = 0` and the stored reset time unchanged,
and the first call after the window elapses returns `allowed = true` with
`remaining = maxRequests - 1` and a fresh reset time `now + windowMs`. -/
theorem checkRateLimit_fixed_window (s0 : RateStore) (key : String)
    (t1 t2 t3 t4 : Nat) (h0 : lookupEntry s0 key = none)
    (h2 : t2 ≤ t1 + 60000) (h3 : t3 ≤ t1 + 60000) (h4 : t1 + 60000 < t4) :
    (checkRateLimit s0 t1 key 60000 2).1 = ⟨true, 1, t1 + 60000⟩ ∧
    (checkRateLimit (checkRateLimit s0 t1 key 60000 2).2 t2 key 60000 2).1 =
      ⟨true, 0, t1 + 60000⟩ ∧
    (checkRateLimit
      (checkRateLimit (checkRateLimit s0 t1 key 60000 2).2 t2 key 60000 2).2
      t3 key 60000 2).1 = ⟨false, 0, t1 + 60000⟩ ∧
    (checkRateLimit
      (checkRateLimit
        (checkRateLimit (checkRateLimit s0 t1 key 60000 2).2 t2 key 60000 2).2
        t3 key 60000 2).2 t4 key 60000 2).1 = ⟨true, 1, t4 + 60000⟩ := by
  have e1 : checkRateLimit s0 t1 key 60000 2 =
      (⟨true, 1, t1 + 60000⟩, setEntry s0 key ⟨1, t1 + 60000⟩) := by
    simp [checkRateLimit, h0]
  have e2 : checkRateLimit (setEntry s0 key ⟨1, t1 + 60000⟩) t2 key 60000 2 =
      (⟨true, 0, t1 + 60000⟩,
       setEntry (setEntry s0 key ⟨1, t1 + 60000⟩) key ⟨2, t1 + 60000⟩) := by
    rw [checkRateLimit, lookupEntry_setEntry]
    simp only [if_neg (by omega : ¬ (t1 + 60000 < t2)),
      if_neg (by omega : ¬ (2 ≤ 1))]
  have e3 : checkRateLimit
      (setEntry (setEntry s0 key ⟨1, t1 + 60000⟩) key ⟨2, t1 + 60000⟩)
      t3 key 60000 2 =
      (⟨false, 0, t1 + 60000⟩,
       setEntry (setEntry s0 key ⟨1, t1 + 60000⟩) key ⟨2, t1 + 60000⟩) := by
    rw [checkRateLimit, lookupEntry_setEntry]
    simp only [if_neg (by omega : ¬ (t1 + 60000 < t3)),
      if_pos (by omega : 2 ≤ 2)]
  have e4 : checkRateLimit
      (setEntry (setEntry s0 key ⟨1, t1 + 60000⟩) key ⟨2, t1 + 60000⟩)
      t4 key 60000 2 =
      (⟨true, 1, t4 + 60000⟩,
       setEntry (setEntry (setEntry s0 key ⟨1, t1 + 60000⟩) key ⟨2, t1 + 60000⟩)
         key ⟨1, t4 + 60000⟩) := by
    rw [checkRateLimit, lookupEntry_setEntry]
    simp only [if_pos h4]
  rw [e1]
  rw [e2]
  rw [e3]
  rw [e4]
  exact ⟨rfl, rfl, rfl, rfl⟩

/-- Witness for C9 at a concrete key, empty store and concrete times. -/
theorem checkRateLimit_fixed_window_witness :
    (checkRateLimit [] 0 "sync:abc" 60000 2).1 = ⟨true, 1, 60000⟩ ∧
    (checkRateLimit (checkRateLimit [] 0 "sync:abc" 60000 2).2 1
      "sync:abc" 60000 2).1 = ⟨true, 0, 60000⟩ ∧
    (checkRateLimit
      (checkRateLimit (checkRateLimit [] 0 "sync:abc" 60000 2).2 1
        "sync:abc" 60000 2).2 2 "sync:abc" 60000 2).1 = ⟨false, 0, 60000⟩ ∧
    (checkRateLimit
      (checkRateLimit
        (checkRateLimit (checkRateLimit [] 0 "sync:abc" 60000 2).2 1
          "sync:abc" 60000 2).2 2 "sync:abc" 60000 2).2 60001
      "sync:abc" 60000 2).1 = ⟨true, 1, 120001⟩ := by
  have h := checkRateLimit_fixed_window [] "sync:abc" 0 1 2 60001 rfl
    (by omega) (by omega) (by omega)
  simpa using h

/-!
## C10 — a stored `topN` of 0 (corrected)

The repositories-to-sync computation does fall back to the full parsed
desired order when `topN` is 0, but the orchestrator never reaches the
per-repository loop with it: the order verification slices both orders to
their first 0 entries and therefore returns true for every current order,
so the run short-circuits with `skipped = true` and processes zero
repositories.
-/

/-- C10 counterexample: with stored `topN = 0` and a desired order of two
repositories whose current order is completely different (empty), the
repositories-to-sync list is the whole desired order, yet the run responds
`skipped = true` with an empty results list — the orchestrator processes
zero repositories, not the entire desired-order list. -/
theorem sync_topN_zero_counterexample :
    reposToSyncOf ["u/a", "u/b"] 0 = ["u/a", "u/b"] ∧
    isRepoOrderCorrect [] (reposToSyncOf ["u/a", "u/b"] 0) 0 = true ∧
    (syncAfterAuth ["u/a", "u/b"] 0 []
      (fun _ => BumpBehavior.ok CleanupOutcome.ok) (fun _ => [])).1.skipped
      = true ∧
    (syncAfterAuth ["u/a", "u/b"] 0 []
      (fun _ => BumpBehavior.ok CleanupOutcome.ok) (fun _ => [])).1.results
      = [] := by
  decide

/-- C10 amended: when the stored `topN` is 0, the repositories-to-sync
list is computed as the entire parsed desired order, but the order
verification with `topN = 0` compares the first 0 entries of each order
and returns true for every current order, so a run with a nonempty parsed
order short-circuits: it responds `skipped = true`, produces no
per-repository results, and performs zero mutating remote calls — it
processes zero repositories, never the desired-order list. -/
theorem sync_topN_zero_skips (parsed currentOrder : List String)
    (env : String → BumpBehavior) (opsFor : String → List GitOp)
    (hne : parsed ≠ []) :
    reposToSyncOf parsed 0 = parsed ∧
    (∀ c d : List String, isRepoOrderCorrect c d 0 = true) ∧
    (syncAfterAuth parsed 0 currentOrder env opsFor).1.skipped = true ∧
    (syncAfterAuth parsed 0 currentOrder env opsFor).1.results = [] ∧
    (syncAfterAuth parsed 0 currentOrder env opsFor).2 = [] := by
  have hfull : reposToSyncOf parsed 0 = parsed := by
    simp [reposToSyncOf]
  have hord : ∀ c d : List String, isRepoOrderCorrect c d 0 = true := by
    intro c d
    rw [isRepoOrderCorrect]
    simp [matchesAt]
  have hlen : ((reposToSyncOf parsed 0).length == 0) = false := by
    rw [hfull]
    simpa [List.length_eq_zero] using hne
  have hrun : syncAfterAuth parsed 0 currentOrder env opsFor =
      (⟨true, some "Repositories already in correct order. No sync needed.",
        0, 0, []⟩, []) := by
    rw [syncAfterAuth]
    simp only [hlen, Bool.false_eq_true, if_false, hord, if_true]
  exact ⟨hfull, hord, by rw [hrun], by rw [hrun], by rw [hrun]⟩

/-- Witness for C10 amended at a concrete desired order and current
order. -/
theorem sync_topN_zero_skips_witness :
    reposToSyncOf ["u/a", "u/b"] 0 = ["u/a", "u/b"] ∧
    (∀ c d : List String, isRepoOrderCorrect c d 0 = true) ∧
    (syncAfterAuth ["u/a", "u/b"] 0 ["u/b", "u/a"]
      (fun _ => BumpBehavior.ok CleanupOutcome.ok) (fun _ => [])).1.skipped
      = true ∧
    (syncAfterAuth ["u/a", "u/b"] 0 ["u/b", "u/a"]
      (fun _ => BumpBehavior.ok CleanupOutcome.ok) (fun _ => [])).1.results
      = [] ∧
    (syncAfterAuth ["u/a", "u/b"] 0 ["u/b", "u/a"]
      (fun _ => BumpBehavior.ok CleanupOutcome.ok) (fun _ => [])).2 = [] :=
  sync_topN_zero_skips ["u/a", "u/b"] ["u/b", "u/a"]
    (fun _ => BumpBehavior.ok CleanupOutcome.ok) (fun _ => []) (by decide)

/-!
## C7 — order verification is a pure positional comparison and a complete
short-circuit
-/

lemma matchesAt_iff (cs ds : List String) :
    matchesAt cs ds = true ↔
      (ds.length ≤ cs.length ∧ ∀ i, i < ds.length → cs[i]? = ds[i]?) := by
  induction ds generalizing cs with
  | nil => simp [matchesAt]
  | cons d ds ih =>
    cases cs with
    | nil => simp [matchesAt]
    | cons c cs =>
      rw [matchesAt]
      rw [Bool.and_eq_true, beq_iff_eq, ih]
      constructor
      · rintro ⟨rfl, hlen, hpos⟩
        refine ⟨by simpa using hlen, ?_⟩
        intro i hi
        cases i with
        | zero => simp
        | succ j =>
          simpa using hpos j (by simpa using hi)
      · rintro ⟨hlen, hpos⟩
        have h0 := hpos 0 (by simp)
        simp only [List.getElem?_cons_zero, Option.some.injEq] at h0
        refine ⟨h0, by simpa using hlen, ?_⟩
        intro i hi
        simpa using hpos (i + 1) (by simpa using hi)

/-- C7: `isRepoOrderCorrect currentOrder desiredOrder topN` returns true
exactly when the current order's first `topN` entries are at least as many
as the desired first `topN` and match them position by position; and
whenever the verifier returns true on a nonempty repositories-to-sync list,
the run issues zero mutating remote calls and responds with
`skipped = true`. -/
theorem isRepoOrderCorrect_short_circuit (parsed currentOrder : List String)
    (topN : Nat) (env : String → BumpBehavior) (opsFor : String → List GitOp)
    (hne : reposToSyncOf parsed topN ≠ [])
    (hord : isRepoOrderCorrect currentOrder (reposToSyncOf parsed topN) topN
      = true) :
    (∀ c d n, isRepoOrderCorrect c d n = true ↔
      ((d.take n).length ≤ (c.take n).length ∧
       ∀ i, i < (d.take n).length → (c.take n)[i]? = (d.take n)[i]?)) ∧
    (syncAfterAuth parsed topN currentOrder env opsFor).2 = [] ∧
    (syncAfterAuth parsed topN currentOrder env opsFor).1.skipped = true := by
  refine ⟨?_, ?_⟩
  · intro c d n
    rw [isRepoOrderCorrect]
    by_cases h : (c.take n).length < (d.take n).length
    · simp only [if_pos h]
      constructor
      · intro hfalse
        exact absurd hfalse (by simp)
      · rintro ⟨hlen, -⟩
        omega
    · simp only [if_neg h]
      rw [matchesAt_iff]
  · have hlen : ((reposToSyncOf parsed topN).length == 0) = false := by
      simpa [List.length_eq_zero] using hne
    rw [syncAfterAuth]
    simp [hlen, hord]

/-- Witness for C7: two repositories already in the desired order. -/
theorem isRepoOrderCorrect_short_circuit_witness :
    (syncAfterAuth ["u/a", "u/b"] 2 ["u/a", "u/b", "u/c"]
      (fun _ => BumpBehavior.ok CleanupOutcome.ok) (fun _ => [])).2 = [] ∧
    (syncAfterAuth ["u/a", "u/b"] 2 ["u/a", "u/b", "u/c"]
      (fun _ => BumpBehavior.ok CleanupOutcome.ok) (fun _ => [])).1.skipped
      = true := by
  have h := isRepoOrderCorrect_short_circuit ["u/a", "u/b"]
    ["u/a", "u/b", "u/c"] 2 (fun _ => BumpBehavior.ok CleanupOutcome.ok)
    (fun _ => []) (by decide) (by decide)
  exact h.2

/-!
## C5 — per-repository failure isolation
-/

lemma processOne_ok (env : String → BumpBehavior) (f : String)
    (hv : validFullName f = true) (c : CleanupOutcome) (hc : env f = .ok c) :
    processOne env f = ⟨f, "success", none, some (c == CleanupOutcome.ok)⟩ := by
  rw [validFullName, Bool.and_eq_true] at hv
  rw [processOne]
  simp only [hv.1, hv.2, Bool.not_true, Bool.or_self, Bool.false_eq_true,
    if_false, hc]

lemma processOne_throws (env : String → BumpBehavior) (f : String)
    (hv : validFullName f = true) (hc : env f = .throws) :
    processOne env f = ⟨f, "error", some "Operation failed", none⟩ := by
  rw [validFullName, Bool.and_eq_true] at hv
  rw [processOne]
  simp only [hv.1, hv.2, Bool.not_true, Bool.or_self, Bool.false_eq_true,
    if_false, hc]

/-- C5: for a desired order `[X, Y, Z]` where `Y`'s bump throws and `X`'s
and `Z`'s succeed (all names valid), the run returns `synced = 2` and
`failed = 1`; the results (in processing order `Z, Y, X`) contain exactly
one error entry, for `Y`, with the generic message "Operation failed", `X`
and `Z` are recorded as success, and processing continued past `Y`'s
failure. -/
theorem sync_failure_isolation (parsed currentOrder : List String)
    (topN : Nat) (X Y Z : String) (env : String → BumpBehavior)
    (opsFor : String → List GitOp) (cx cz : CleanupOutcome)
    (hrepos : reposToSyncOf parsed topN = [X, Y, Z])
    (hord : isRepoOrderCorrect currentOrder [X, Y, Z] topN = false)
    (hvX : validFullName X = true) (hvY : validFullName Y = true)
    (hvZ : validFullName Z = true)
    (hX : env X = .ok cx) (hY : env Y = .throws) (hZ : env Z = .ok cz) :
    (syncAfterAuth parsed topN currentOrder env opsFor).1.synced = 2 ∧
    (syncAfterAuth parsed topN currentOrder env opsFor).1.failed = 1 ∧
    (syncAfterAuth parsed topN currentOrder env opsFor).1.results =
      [⟨Z, "success", none, some (cz == CleanupOutcome.ok)⟩,
       ⟨Y, "error", some "Operation failed", none⟩,
       ⟨X, "success", none, some (cx == CleanupOutcome.ok)⟩] ∧
    ((syncAfterAuth parsed topN currentOrder env opsFor).1.results.filter
      (fun r => r.status == "error")) =
      [⟨Y, "error", some "Operation failed", none⟩] := by
  have hproc : processRepos env [X, Y, Z] =
      [⟨Z, "success", none, some (cz == CleanupOutcome.ok)⟩,
       ⟨Y, "error", some "Operation failed", none⟩,
       ⟨X, "success", none, some (cx == CleanupOutcome.ok)⟩] := by
    rw [processRepos]
    simp only [List.reverse_cons, List.reverse_nil, List.nil_append,
      List.cons_append, List.map_cons, List.map_nil]
    rw [processOne_ok env Z hvZ cz hZ, processOne_throws env Y hvY hY,
      processOne_ok env X hvX cx hX]
  rw [syncAfterAuth, hrepos]
  simp only [hord]
  rw [hproc]
  refine ⟨?_, ?_, rfl, ?_⟩ <;> simp [syncedCount, failedCount]

/-- Witness for C5 at concrete repository names and environment. -/
theorem sync_failure_isolation_witness :
    (syncAfterAuth ["u/x", "u/y", "u/z"] 3 []
      (fun s => if s == "u/y" then BumpBehavior.throws
                else BumpBehavior.ok CleanupOutcome.ok)
      (fun _ => [])).1.synced = 2 ∧
    (syncAfterAuth ["u/x", "u/y", "u/z"] 3 []
      (fun s => if s == "u/y" then BumpBehavior.throws
                else BumpBehavior.ok CleanupOutcome.ok)
      (fun _ => [])).1.failed = 1 := by
  have h := sync_failure_isolation ["u/x", "u/y", "u/z"] [] 3 "u/x" "u/y" "u/z"
    (fun s => if s == "u/y" then BumpBehavior.throws
              else BumpBehavior.ok CleanupOutcome.ok)
    (fun _ => []) CleanupOutcome.ok CleanupOutcome.ok
    (by decide) (by decide) (by decide) (by decide) (by decide)
    (by decide) (by decide) (by decide)
  exact ⟨h.1, h.2.1⟩

/-!
## C6 — run status is success/partial and cleanup failure never demotes it
-/

/-- C6: the persisted run status is `success` exactly when every
repository's result is success, and `partial` otherwise (never `error`);
and a repository whose bump succeeded but whose cleanup failed (the helper
returned a non-success status, or threw) is still recorded as success with
`cleaned = false`. -/
theorem run_status_cleanup_isolation (results : List SyncResult)
    (env : String → BumpBehavior) (f : String) (c : CleanupOutcome)
    (hv : validFullName f = true) (hc : env f = .ok c)
    (hfail : c ≠ CleanupOutcome.ok) :
    (runStatus results = "success" ↔ ∀ r ∈ results, r.status = "success") ∧
    (runStatus results = "success" ∨ runStatus results = "partial") ∧
    runStatus results ≠ "error" ∧
    processOne env f = ⟨f, "success", none, some false⟩ := by
  refine ⟨?_, ?_, ?_, ?_⟩
  · rw [runStatus]
    by_cases h : results.all (fun r => r.status == "success")
    · simp only [if_pos h, true_iff]
      intro r hr
      have := List.all_eq_true.mp h r hr
      simpa using this
    · simp only [if_neg h]
      constructor
      · intro hcontra
        exact absurd hcontra (by decide)
      · intro hall
        exact absurd (List.all_eq_true.mpr (fun r hr => by
          simpa using hall r hr)) h
  · rw [runStatus]
    by_cases h : results.all (fun r => r.status == "success")
    · exact Or.inl (by simp [h])
    · exact Or.inr (by simp [h])
  · rw [runStatus]
    by_cases h : results.all (fun r => r.status == "success")
    · simp [h]
    · simp [h]
  · rw [processOne_ok env f hv c hc]
    have : (c == CleanupOutcome.ok) = false := by
      cases c <;> simp_all
    rw [this]

/-- Witness for C6: one successful and one failed repository, plus a
repository with a failing cleanup. -/
theorem run_status_cleanup_isolation_witness :
    (runStatus [⟨"u/a", "success", none, some true⟩,
                ⟨"u/b", "error", some "Operation failed", none⟩] = "success" ↔
      ∀ r ∈ [⟨"u/a", "success", none, some true⟩,
             ⟨"u/b", "error", some "Operation failed", none⟩],
        SyncResult.status r = "success") ∧
    (runStatus [⟨"u/a", "success", none, some true⟩,
                ⟨"u/b", "error", some "Operation failed", none⟩] = "success" ∨
     runStatus [⟨"u/a", "success", none, some true⟩,
                ⟨"u/b", "error", some "Operation failed", none⟩] = "partial") ∧
    runStatus [⟨"u/a", "success", none, some true⟩,
               ⟨"u/b", "error", some "Operation failed", none⟩] ≠ "error" ∧
    processOne (fun _ => BumpBehavior.ok CleanupOutcome.failed) "u/a" =
      ⟨"u/a", "success", none, some false⟩ :=
  run_status_cleanup_isolation
    [⟨"u/a", "success", none, some true⟩,
     ⟨"u/b", "error", some "Operation failed", none⟩]
    (fun _ => BumpBehavior.ok CleanupOutcome.failed) "u/a"
    CleanupOutcome.failed (by decide) rfl (by decide)

/-!
## C4 — Revert-strategy bump preserves the tree and appends two commits
-/

lemma findCommit_append (l r : List Commit) (s : Nat)
    (h : ∀ c ∈ l, (c.sha == s) = false) :
    findCommit (l ++ r) s = findCommit r s := by
  induction l with
  | nil => simp
  | cons c cs ih =>
    rw [List.cons_append, findCommit, List.find?]
    rw [h c (by simp)]
    exact ih (fun c' hc' => h c' (by simp [hc']))

lemma leadsWith_append (pat l r : List Char) (h : leadsWith pat l = true) :
    leadsWith pat (l ++ r) = true := by
  induction pat generalizing l with
  | nil => rfl
  | cons p ps ih =>
    cases l with
    | nil => exact absurd h (by rw [leadsWith]; simp)
    | cons c cs =>
      rw [leadsWith] at h
      rw [Bool.and_eq_true] at h
      rw [List.cons_append, leadsWith, Bool.and_eq_true]
      exact ⟨h.1, ih cs h.2⟩

lemma occursIn_of_leadsWith (pat l : List Char) (h : leadsWith pat l = true) :
    occursIn pat l = true := by
  cases l with
  | nil => rw [occursIn]; exact h
  | cons c cs => rw [occursIn, Bool.or_eq_true]; exact Or.inl h

lemma includesMarker_position (rest : String) :
    includesMarker ("[GitPins] Position: " ++ rest) = true := by
  rw [includesMarker]
  have hdata : ("[GitPins] Position: " ++ rest).toList =
      "[GitPins] Position: ".toList ++ rest.toList := by
    simp [String.toList]
  rw [hdata]
  exact occursIn_of_leadsWith _ _
    (leadsWith_append _ _ _ (by decide))

/-- C4: whenever a Revert-strategy bump succeeds (the branch HEAD
resolves), the resulting state appends exactly two new commits to the
object store, the branch points at the second, the second's sole parent is
the first and the first's sole parent is the old HEAD, both carry the
synthetic marker and reuse the original tree, and the tree sha of the
branch HEAD after the bump equals the tree sha of the HEAD before. -/
theorem revertBump_preserves_tree (st : RepoState) (branch : String)
    (pos total fresh : Nat) (headC : Commit)
    (hh : findCommit st.commits st.head = some headC)
    (hf : ∀ c ∈ st.commits, c.sha < fresh) :
    ∃ c1 c2, revertBump st branch pos total fresh =
      some (⟨st.commits ++ [c1, c2], c2.sha⟩,
        [GitOp.createCommit c1,
         GitOp.updateRef ("heads/" ++ branch) c1.sha false,
         GitOp.createCommit c2,
         GitOp.updateRef ("heads/" ++ branch) c2.sha false]) ∧
      c1.sha = fresh ∧ c2.sha = fresh + 1 ∧
      c1.parents = [st.head] ∧ c2.parents = [c1.sha] ∧
      c1.tree = headC.tree ∧ c2.tree = headC.tree ∧
      includesMarker c1.message = true ∧ includesMarker c2.message = true ∧
      treeOfHead ⟨st.commits ++ [c1, c2], c2.sha⟩ = treeOfHead st ∧
      treeOfHead st = some headC.tree := by
  refine ⟨⟨fresh, "[GitPins] Position: " ++ toString pos ++ "/" ++ toString total,
    headC.tree, [st.head], "", ""⟩,
    ⟨fresh + 1, "[GitPins] Revert", headC.tree, [fresh], "", ""⟩,
    ?_, rfl, rfl, rfl, rfl, rfl, rfl, ?_,
    (by decide : includesMarker "[GitPins] Revert" = true), ?_, ?_⟩
  · rw [revertBump, hh]
  · have : "[GitPins] Position: " ++ toString pos ++ "/" ++ toString total =
        "[GitPins] Position: " ++ (toString pos ++ "/" ++ toString total) := by
      simp [String.append_assoc]
    rw [this]
    exact includesMarker_position _
  · have hfind : findCommit (st.commits ++
        [⟨fresh, "[GitPins] Position: " ++ toString pos ++ "/" ++ toString total,
          headC.tree, [st.head], "", ""⟩,
         ⟨fresh + 1, "[GitPins] Revert", headC.tree, [fresh], "", ""⟩])
        (fresh + 1) =
        some ⟨fresh + 1, "[GitPins] Revert", headC.tree, [fresh], "", ""⟩ := by
      rw [findCommit_append]
      · rw [findCommit, List.find?]
        have h1 : (fresh == fresh + 1) = false := by simp
        rw [h1, List.find?]
        simp
      · intro c hc
        have := hf c hc
        simp only [beq_eq_false_iff_ne, ne_eq]
        omega
    rw [treeOfHead, treeOfHead]
    simp [hfind, hh]
  · simp [treeOfHead, hh]

/-- Witness for C4: a one-commit repository bumped with fresh shas. -/
theorem revertBump_preserves_tree_witness :
    ∃ c1 c2,
      revertBump ⟨[⟨1, "init", 10, [], "a", "a"⟩], 1⟩ "main" 1 3 100 =
        some (⟨[⟨1, "init", 10, [], "a", "a"⟩] ++ [c1, c2], c2.sha⟩,
          [GitOp.createCommit c1,
           GitOp.updateRef ("heads/" ++ "main") c1.sha false,
           GitOp.createCommit c2,
           GitOp.updateRef ("heads/" ++ "main") c2.sha false]) ∧
      c1.sha = 100 ∧ c2.sha = 100 + 1 ∧
      c1.parents = [1] ∧ c2.parents = [c1.sha] ∧
      c1.tree = 10 ∧ c2.tree = 10 ∧
      includesMarker c1.message = true ∧ includesMarker c2.message = true ∧
      treeOfHead ⟨[⟨1, "init", 10, [], "a", "a"⟩] ++ [c1, c2], c2.sha⟩ =
        treeOfHead ⟨[⟨1, "init", 10, [], "a", "a"⟩], 1⟩ ∧
      treeOfHead ⟨[⟨1, "init", 10, [], "a", "a"⟩], 1⟩ = some 10 :=
  revertBump_preserves_tree ⟨[⟨1, "init", 10, [], "a", "a"⟩], 1⟩ "main" 1 3 100
    ⟨1, "init", 10, [], "a", "a"⟩ rfl (by decide)

/-!
## C2 — backup reference creation (corrected)

The claim says a backup reference is created on *every* cleanup invocation.
The code returns early, without creating any backup, when the fetched
window contains no marked commit; the backup is created (before any
mutation, pointing at the current HEAD) exactly on the invocations that
found at least one marked commit, and a backup failure prevents all
mutation.
-/

/-- C2 counterexample: a cleanup invocation on a window with no marked
commits terminates successfully without creating any reference — so no
backup reference is created on this invocation. -/
theorem cleanup_backup_counterexample :
    (cleanupRepoCommitsAutomatic [⟨1, "init", 0, [], "a", "a"⟩] true "main"
      "gitpins-backup-1" 10).2 = [] ∧
    (cleanupRepoCommitsAutomatic [⟨1, "init", 0, [], "a", "a"⟩] true "main"
      "gitpins-backup-1" 10).1.status = "success" ∧
    ((cleanupRepoCommitsAutomatic [⟨1, "init", 0, [], "a", "a"⟩] true "main"
      "gitpins-backup-1" 10).2.all (fun op => !op.isCreateRef)) = true := by
  decide

/-- C2 amended: if creating the backup reference fails, no mutation at all
is performed (the trace of effective operations is empty); and on every
invocation whose window contains at least one marked commit, the first
operation of the trace — before any commit creation or reference update —
is the creation of the backup reference pointing at the current HEAD (the
newest fetched commit). -/
theorem cleanup_backup_guard (window : List Commit) (db bn : String)
    (fb : Nat) :
    (cleanupRepoCommitsAutomatic window false db bn fb).2 = [] ∧
    (∀ c0 rest, window = c0 :: rest →
      (window.filter (fun c => includesMarker c.message)).length ≠ 0 →
      (cleanupRepoCommitsAutomatic window true db bn fb).2.head? =
        some (GitOp.createRef bn c0.sha)) := by
  constructor
  · rw [cleanupRepoCommitsAutomatic.eq_def]
    by_cases hg :
        ((window.filter (fun c => includesMarker c.message)).length == 0) = true
    · simp [hg]
    · simp only [hg, Bool.false_eq_true, if_false]
      cases window with
      | nil => rfl
      | cons c0 rest => simp
  · intro c0 rest hw hg
    subst hw
    rw [cleanupRepoCommitsAutomatic.eq_def]
    have hg' : ((((c0 :: rest)).filter
        (fun c => includesMarker c.message)).length == 0) = false := by
      simpa using hg
    simp only [hg', Bool.false_eq_true, if_false, Bool.not_true]
    cases hwk : (walkAux (c0 :: rest) (c0 :: rest).reverse [] none fb).2 with
    | none => simp [hwk]
    | some last => simp [hwk]

/-- Witness for C2 amended: a window holding one marked commit gets the
backup reference, pointing at that window head, as its first operation. -/
theorem cleanup_backup_guard_witness :
    (cleanupRepoCommitsAutomatic
      [⟨2, "[GitPins] Position: 1/1", 0, [1], "a", "a"⟩,
       ⟨1, "init", 0, [], "a", "a"⟩] true "main" "gitpins-backup-1" 10).2.head?
      = some (GitOp.createRef "gitpins-backup-1" 2) :=
  (cleanup_backup_guard
    [⟨2, "[GitPins] Position: 1/1", 0, [1], "a", "a"⟩,
     ⟨1, "init", 0, [], "a", "a"⟩] "main" "gitpins-backup-1" 10).2
    ⟨2, "[GitPins] Position: 1/1", 0, [1], "a", "a"⟩
    [⟨1, "init", 0, [], "a", "a"⟩] rfl (by decide)

/-!
## C3 — all-synthetic window (corrected)

The claim says an all-marked window makes cleanup "report zero removable
commits".  The code instead returns an error result ("No non-GitPins
commits found to recreate") whose `removedCommits` field is absent; it is
true that the default branch reference is not touched, and that the
reference is force-updated only when at least one real commit was
recreated, and then to the last recreated commit's sha.
-/

lemma walkAux_all_marked (window l : List Commit) (m : List (Nat × Nat))
    (last : Option Nat) (next : Nat)
    (h : ∀ c ∈ l, includesMarker c.message = true) :
    walkAux window l m last next = ([], last) := by
  induction l generalizing m last next with
  | nil => rfl
  | cons c rest ih =>
    rw [walkAux]
    rw [h c (by simp)]
    exact ih _ _ _ (fun c' hc' => h c' (by simp [hc']))

lemma updateRef_not_mem_createCommits (l : List Commit) (nm : String)
    (s : Nat) (f : Bool) :
    GitOp.updateRef nm s f ∉ l.map GitOp.createCommit := by
  simp [List.mem_map]

/-- C3 amended: on an all-marked nonempty window, cleanup returns the error
result "No non-GitPins commits found to recreate" (no `removedCommits`
count, no new head) and performs no reference update; and in general, any
reference update in a cleanup trace is a force-update of the default
branch to the sha of the last recreated commit, which the result reports as
the new head — so the reference is touched only when at least one real
commit was recreated. -/
theorem cleanup_all_marked (window : List Commit) (db bn : String) (fb : Nat)
    (hne : window ≠ [])
    (hall : ∀ c ∈ window, includesMarker c.message = true) :
    (cleanupRepoCommitsAutomatic window true db bn fb).1 =
      ⟨"error", "none", none, none,
       some "No non-GitPins commits found to recreate"⟩ ∧
    (∀ op ∈ (cleanupRepoCommitsAutomatic window true db bn fb).2,
      op.isUpdateRef = false) ∧
    (∀ (window' : List Commit) (bk : Bool) (nm : String) (s : Nat) (f : Bool),
      GitOp.updateRef nm s f ∈ (cleanupRepoCommitsAutomatic window' bk db bn fb).2 →
      f = true ∧ nm = "heads/" ++ db ∧
      (cleanupRepoCommitsAutomatic window' bk db bn fb).1.newHead = some s ∧
      (walkAux window' window'.reverse [] none fb).2 = some s) := by
  have hmain : ∀ (w : List Commit), w ≠ [] →
      (∀ c ∈ w, includesMarker c.message = true) →
      ∃ c0 rest, w = c0 :: rest ∧
        cleanupRepoCommitsAutomatic w true db bn fb =
        (⟨"error", "none", none, none,
          some "No non-GitPins commits found to recreate"⟩,
         [GitOp.createRef bn c0.sha]) := by
    intro w hne hall
    cases w with
    | nil => exact absurd rfl hne
    | cons c0 rest =>
      refine ⟨c0, rest, rfl, ?_⟩
      have hfil : (c0 :: rest).filter (fun c => includesMarker c.message) =
          c0 :: rest := List.filter_eq_self.mpr (fun c hc => hall c hc)
      have hg : (((c0 :: rest).filter
          (fun c => includesMarker c.message)).length == 0) = false := by
        rw [hfil]
        simp
      have hwalk : walkAux (c0 :: rest) (c0 :: rest).reverse [] none fb =
          ([], none) :=
        walkAux_all_marked _ _ _ _ _
          (fun c hc => hall c (List.mem_reverse.mp hc))
      rw [cleanupRepoCommitsAutomatic.eq_def]
      simp only [hg, Bool.false_eq_true, if_false, Bool.not_true, hwalk]
      rfl
  obtain ⟨c0, rest, hw, heq⟩ := hmain window hne hall
  refine ⟨by rw [heq], ?_, ?_⟩
  · rw [heq]
    intro op hop
    simp only [List.mem_singleton] at hop
    subst hop
    rfl
  · intro window' bk nm s f hop
    rw [cleanupRepoCommitsAutomatic.eq_def] at hop ⊢
    by_cases hg : ((window'.filter
        (fun c => includesMarker c.message)).length == 0) = true
    · simp only [hg, if_true] at hop
      exact absurd hop (by simp)
    · simp only [hg, Bool.false_eq_true, if_false] at hop ⊢
      cases window' with
      | nil => exact absurd hop (by simp)
      | cons d0 drest =>
        cases hbk : bk with
        | false => simp only [hbk, Bool.not_false, if_true] at hop
                   exact absurd hop (by simp)
        | true =>
          simp only [hbk, Bool.not_true, Bool.false_eq_true, if_false] at hop ⊢
          cases hwk : (walkAux (d0 :: drest) (d0 :: drest).reverse [] none fb).2 with
          | none =>
            simp only [hwk] at hop
            rcases List.mem_cons.mp hop with h | h
            · exact absurd h (by simp)
            · exact absurd h (updateRef_not_mem_createCommits _ _ _ _)
          | some last =>
            simp only [hwk] at hop ⊢
            rcases List.mem_cons.mp hop with h | h
            · exact absurd h (by simp)
            · rcases List.mem_append.mp h with h' | h'
              · exact absurd h' (updateRef_not_mem_createCommits _ _ _ _)
              · simp only [List.mem_singleton, GitOp.updateRef.injEq] at h'
                obtain ⟨hnm, hs, hf⟩ := h'
                subst hnm
                subst hs
                subst hf
                exact ⟨rfl, rfl, rfl, rfl⟩

/-- Witness for C3 amended at a concrete all-marked window. -/
theorem cleanup_all_marked_witness :
    (cleanupRepoCommitsAutomatic
      [⟨2, "[GitPins] Revert", 0, [1], "a", "a"⟩,
       ⟨1, "[GitPins] Position: 1/1", 0, [], "a", "a"⟩] true "main" "bk" 10).1 =
      ⟨"error", "none", none, none,
       some "No non-GitPins commits found to recreate"⟩ :=
  (cleanup_all_marked
    [⟨2, "[GitPins] Revert", 0, [1], "a", "a"⟩,
     ⟨1, "[GitPins] Position: 1/1", 0, [], "a", "a"⟩] "main" "bk" 10
    (by decide) (by decide)).1

/-- C3 counterexample: on an all-marked window the cleanup result does not
report zero removable commits (`removedCommits` is absent, and the result
is an error, not a success reporting zero). -/
theorem cleanup_all_marked_counterexample :
    (cleanupRepoCommitsAutomatic
      [⟨1, "[GitPins] Position: 1/1", 0, [], "a", "a"⟩] true "main" "bk"
      10).1.removedCommits ≠ some 0 ∧
    (cleanupRepoCommitsAutomatic
      [⟨1, "[GitPins] Position: 1/1", 0, [], "a", "a"⟩] true "main" "bk"
      10).1.status = "error" := by
  decide

/-!
## C1 — parent remapping across an excised marked commit
-/

/-- C1: for a fetched window `[C, B, M, A]` (newest first) holding real
commits `A -> M -> B -> C` with a marked commit `M` between `A` and `B`,
cleanup walks oldest to newest, skips `M`, and recreates `A`, `B`, `C` in
that order with their original message/tree/author/committer; the recreated
`B`'s sole parent is the recreated `A`'s sha (`fresh`, not `M`'s sha), the
recreated `C`'s sole parent is the recreated `B`'s sha, and the branch is
force-updated to the recreated `C`. -/
theorem cleanup_remaps_parents_across_marked (A M B C : Commit)
    (db bn : String) (fresh : Nat)
    (hA : includesMarker A.message = false)
    (hB : includesMarker B.message = false)
    (hC : includesMarker C.message = false)
    (hM : includesMarker M.message = true)
    (hAp : A.parents = []) (hMp : M.parents = [A.sha])
    (hBp : B.parents = [M.sha]) (hCp : C.parents = [B.sha])
    (hMA : M.sha ≠ A.sha) (hBA : B.sha ≠ A.sha) :
    cleanupRepoCommitsAutomatic [C, B, M, A] true db bn fresh =
      (⟨"success", "rewrite", some 1, some (fresh + 2), none⟩,
       [GitOp.createRef bn C.sha,
        GitOp.createCommit ⟨fresh, A.message, A.tree, [], A.author, A.committer⟩,
        GitOp.createCommit
          ⟨fresh + 1, B.message, B.tree, [fresh], B.author, B.committer⟩,
        GitOp.createCommit
          ⟨fresh + 2, C.message, C.tree, [fresh + 1], C.author, C.committer⟩,
        GitOp.updateRef ("heads/" ++ db) (fresh + 2) true]) := by
  have h1 : (A.sha == M.sha) = false := beq_eq_false_iff_ne.mpr (Ne.symm hMA)
  have h2 : (A.sha == B.sha) = false := beq_eq_false_iff_ne.mpr (Ne.symm hBA)
  have hmarkM : markedInList [C, B, M, A] M.sha = true := by
    simp [markedInList, hC, hB, hM]
  have hwalk : walkAux [C, B, M, A] [A, M, B, C] [] none fresh =
      ([⟨fresh, A.message, A.tree, [], A.author, A.committer⟩,
        ⟨fresh + 1, B.message, B.tree, [fresh], B.author, B.committer⟩,
        ⟨fresh + 2, C.message, C.tree, [fresh + 1], C.author, C.committer⟩],
       some (fresh + 2)) := by
    rw [walkAux]
    rw [hA]
    simp only [Bool.false_eq_true, if_false]
    rw [newParentsFor, hAp]
    simp only [List.isEmpty_nil, if_true, List.nil_append]
    rw [walkAux]
    rw [hM]
    simp only [if_true]
    rw [walkAux]
    rw [hB]
    simp only [Bool.false_eq_true, if_false]
    rw [newParentsFor, hBp]
    simp only [List.isEmpty_cons, Bool.false_eq_true, if_false]
    rw [remapParents]
    simp only [List.foldl, lookupMap, List.find?, h1, Option.map_none, hmarkM,
      if_true, List.isEmpty_nil]
    simp only [List.cons_append, List.nil_append]
    rw [walkAux]
    rw [hC]
    simp only [Bool.false_eq_true, if_false]
    rw [newParentsFor, hCp]
    simp only [List.isEmpty_cons, Bool.false_eq_true, if_false]
    rw [remapParents]
    simp only [List.foldl, lookupMap, List.find?, h2, beq_self_eq_true,
      Option.map_some, List.nil_append, List.isEmpty_cons, Bool.false_eq_true,
      if_false]
    rw [walkAux]
    simp [add_assoc]
  have hfil : List.filter (fun c => includesMarker c.message) [C, B, M, A]
      = [M] := by
    simp [List.filter, hA, hB, hC, hM]
  rw [cleanupRepoCommitsAutomatic.eq_def]
  simp only [hfil, List.length_cons, List.length_nil]
  have hrev : ([C, B, M, A] : List Commit).reverse = [A, M, B, C] := by
    simp
  simp only [Nat.reduceBEq, Bool.false_eq_true, if_false, Bool.not_true, hrev,
    hwalk, List.map_cons, List.map_nil, List.cons_append, List.nil_append]
  simp

/-- Witness for C1 at a concrete four-commit window. -/
theorem cleanup_remaps_parents_across_marked_witness :
    cleanupRepoCommitsAutomatic
      [⟨4, "feat c", 12, [3], "a", "a"⟩,
       ⟨3, "feat b", 11, [2], "a", "a"⟩,
       ⟨2, "[GitPins] Position: 1/3", 10, [1], "g", "g"⟩,
       ⟨1, "init", 10, [], "a", "a"⟩] true "main" "bk" 100 =
      (⟨"success", "rewrite", some 1, some (100 + 2), none⟩,
       [GitOp.createRef "bk" 4,
        GitOp.createCommit ⟨100, "init", 10, [], "a", "a"⟩,
        GitOp.createCommit ⟨100 + 1, "feat b", 11, [100], "a", "a"⟩,
        GitOp.createCommit ⟨100 + 2, "feat c", 12, [100 + 1], "a", "a"⟩,
        GitOp.updateRef ("heads/" ++ "main") (100 + 2) true]) :=
  cleanup_remaps_parents_across_marked
    ⟨1, "init", 10, [], "a", "a"⟩
    ⟨2, "[GitPins] Position: 1/3", 10, [1], "g", "g"⟩
    ⟨3, "feat b", 11, [2], "a", "a"⟩
    ⟨4, "feat c", 12, [3], "a", "a"⟩
    "main" "bk" 100 (by decide) (by decide) (by decide) (by decide)
    rfl rfl rfl rfl (by decide) (by decide)

/-!
## C8 — history shrinkage accounting (corrected)

The claim quantifies over arbitrary fetched windows.  It fails on a
non-linear window: when the newest commit is a marked merge commit whose
two parents are two real root commits, the walk recreates both roots but
the branch is updated to the *last* recreated one, from which the other
recreated root is unreachable — so only 1 of the n - k = 2 real commits is
reachable from the new HEAD.  On linear windows (each fetched commit's sole
parent is the next older one) the claim holds, and is proved below over the
canonical linear window of an arbitrary marked/real pattern.
-/

/-- C8 counterexample: window `[M, Ra, Rb]` where marked `M` merges the two
real roots `Ra` and `Rb` (n = 3, k = 1).  Cleanup reports
`removedCommits = 1` and recreates 2 commits, but only 1 recreated commit
is reachable from the new head — not n - k = 2. -/
theorem cleanup_shrinkage_counterexample :
    (cleanupRepoCommitsAutomatic
      [⟨13, "[GitPins] Position: 1/1", 1, [11, 12], "g", "g"⟩,
       ⟨11, "root a", 1, [], "a", "a"⟩,
       ⟨12, "root b", 2, [], "a", "a"⟩] true "main" "bk" 100).1.removedCommits
      = some 1 ∧
    (createdOf (cleanupRepoCommitsAutomatic
      [⟨13, "[GitPins] Position: 1/1", 1, [11, 12], "g", "g"⟩,
       ⟨11, "root a", 1, [], "a", "a"⟩,
       ⟨12, "root b", 2, [], "a", "a"⟩] true "main" "bk" 100).2).length = 2 ∧
    (cleanupRepoCommitsAutomatic
      [⟨13, "[GitPins] Position: 1/1", 1, [11, 12], "g", "g"⟩,
       ⟨11, "root a", 1, [], "a", "a"⟩,
       ⟨12, "root b", 2, [], "a", "a"⟩] true "main" "bk" 100).1.newHead
      = some 101 ∧
    (reachableIn (createdOf (cleanupRepoCommitsAutomatic
      [⟨13, "[GitPins] Position: 1/1", 1, [11, 12], "g", "g"⟩,
       ⟨11, "root a", 1, [], "a", "a"⟩,
       ⟨12, "root b", 2, [], "a", "a"⟩] true "main" "bk" 100).2)
      2 101).length = 1 ∧
    ¬ (∀ c ∈ createdOf (cleanupRepoCommitsAutomatic
        [⟨13, "[GitPins] Position: 1/1", 1, [11, 12], "g", "g"⟩,
         ⟨11, "root a", 1, [], "a", "a"⟩,
         ⟨12, "root b", 2, [], "a", "a"⟩] true "main" "bk" 100).2,
        c.sha ∈ reachableIn (createdOf (cleanupRepoCommitsAutomatic
          [⟨13, "[GitPins] Position: 1/1", 1, [11, 12], "g", "g"⟩,
           ⟨11, "root a", 1, [], "a", "a"⟩,
           ⟨12, "root b", 2, [], "a", "a"⟩] true "main" "bk" 100).2) 2 101) := by
  decide

lemma chainMsg_marker : includesMarker (chainMsg true) = true ∧
    includesMarker (chainMsg false) = false := by decide

lemma seqFrom_snoc (s m : Nat) : seqFrom s (m + 1) = seqFrom s m ++ [s + m] := by
  induction m generalizing s with
  | zero => simp [seqFrom]
  | succ m ih =>
    rw [seqFrom]
    rw [ih (s + 1)]
    rw [seqFrom]
    simp [Nat.add_assoc, Nat.add_comm 1 m]

lemma filter_not_length (flags : List Bool) :
    (flags.filter (fun f => !f)).length =
      flags.length - (flags.filter (fun f => f)).length := by
  induction flags with
  | nil => rfl
  | cons f fs ih =>
    cases f with
    | false =>
      simp only [List.filter, Bool.not_false, List.length_cons]
      have hle : (fs.filter (fun f => f)).length ≤ fs.length :=
        List.length_filter_le _ _
      omega
    | true =>
      simp only [List.filter, Bool.not_true, List.length_cons]
      have hle : (fs.filter (fun f => f)).length ≤ fs.length :=
        List.length_filter_le _ _
      omega

lemma chainAux_filter_marked (flags : List Bool) :
    ∀ idx prev,
      ((chainAux idx prev flags).filter
        (fun c => includesMarker c.message)).length =
      (flags.filter (fun f => f)).length := by
  induction flags with
  | nil => intro idx prev; rfl
  | cons f fs ih =>
    intro idx prev
    cases f with
    | true =>
      simp only [chainAux, List.filter, chainMsg_marker.1]
      simp only [List.length_cons, ih]
    | false =>
      simp only [chainAux, List.filter, chainMsg_marker.2]
      exact ih _ _

lemma chainAux_length (flags : List Bool) :
    ∀ idx prev, (chainAux idx prev flags).length = flags.length := by
  induction flags with
  | nil => intro idx prev; rfl
  | cons f fs ih =>
    intro idx prev
    simp only [chainAux, List.length_cons, ih]

lemma createdOf_success_trace (l : List Commit) (n nm : String) (s sh : Nat)
    (f : Bool) :
    createdOf (GitOp.createRef n s ::
      (l.map GitOp.createCommit ++ [GitOp.updateRef nm sh f])) = l := by
  rw [createdOf]
  rw [List.filterMap_cons]
  simp only [List.filterMap_append, List.filterMap_map]
  simp only [List.filterMap_cons, Function.comp]
  show l.filterMap (fun c => some c) ++ _ = l
  simp

lemma lookupMap_eq_none (m : List (Nat × Nat)) (s : Nat)
    (h : ∀ q ∈ m, (q.1 == s) = false) : lookupMap m s = none := by
  induction m with
  | nil => rfl
  | cons q qs ih =>
    rw [lookupMap, List.find?]
    rw [h q (by simp)]
    exact ih (fun q' hq' => h q' (by simp [hq']))

lemma lookupMap_append_self (m : List (Nat × Nat)) (s v : Nat)
    (h : ∀ q ∈ m, (q.1 == s) = false) :
    lookupMap (m ++ [(s, v)]) s = some v := by
  induction m with
  | nil => simp [lookupMap, List.find?]
  | cons q qs ih =>
    rw [List.cons_append, lookupMap, List.find?]
    rw [h q (by simp)]
    exact ih (fun q' hq' => h q' (by simp [hq']))

/-- The cleanup walk on a canonical linear chain produces exactly the
expected recreated chain.  The invariant carried through the walk: the
previous chain commit is either marked (absent from the mapping, present
marked in the window) or real (mapped to the last recreated sha), mapping
keys stay below the current index, the remaining chain lies inside the
window, and at the start of the chain nothing was recreated yet. -/
lemma walkAux_chain (W : List Commit) (flags : List Bool) :
    ∀ (idx next : Nat) (prev last : Option Nat) (m : List (Nat × Nat)),
      (prev = none → last = none) →
      (∀ p, prev = some p →
        (lookupMap m p = none ∧ markedInList W p = true) ∨
        (lookupMap m p = last ∧ last ≠ none)) →
      (∀ q ∈ m, q.1 < idx) →
      (∀ c ∈ chainAux idx prev flags, c ∈ W) →
      walkAux W (chainAux idx prev flags) m last next =
        expWalk idx last next flags := by
  induction flags with
  | nil => intro idx next prev last m _ _ _ _; rfl
  | cons f fs ih =>
    intro idx next prev last m hnone hsome hkeys hsub
    have hknone : lookupMap m idx = none :=
      lookupMap_eq_none m idx (fun q hq => by
        have := hkeys q hq
        simp only [beq_eq_false_iff_ne, ne_eq]
        omega)
    cases f with
    | true =>
      have hmem : markedInList W idx = true := by
        have hcmem : (⟨idx, chainMsg true, idx, prev.toList, "a", "a"⟩ : Commit)
            ∈ W := hsub _ (by rw [chainAux]; exact List.mem_cons_self _ _)
        rw [markedInList, List.any_eq_true]
        exact ⟨_, hcmem, by simp [chainMsg_marker.1]⟩
      simp only [chainAux, walkAux, expWalk, chainMsg_marker.1, if_true]
      refine ih (idx + 1) next (some idx) last m ?_ ?_ ?_ ?_
      · intro h; exact absurd h (by simp)
      · intro p hp
        rw [Option.some.injEq] at hp
        subst hp
        exact Or.inl ⟨hknone, hmem⟩
      · intro q hq
        have := hkeys q hq
        omega
      · intro c hc
        exact hsub c (by rw [chainAux]; exact List.mem_cons_of_mem _ hc)
    | false =>
      have hbase : newParentsFor W m last prev.toList = last.toList := by
        cases prev with
        | none =>
          rw [hnone rfl]
          rfl
        | some p =>
          rcases hsome p rfl with ⟨hl, hmk⟩ | ⟨hl, hne⟩
          · rw [Option.toList]
            rw [newParentsFor]
            simp only [List.isEmpty_cons, Bool.false_eq_true, if_false]
            rw [remapParents]
            simp only [List.foldl, hl, hmk, if_true]
            simp only [List.isEmpty_nil, if_true]
            cases last with
            | none => rfl
            | some l => rfl
          · cases last with
            | none => exact absurd rfl hne
            | some l =>
              rw [Option.toList]
              rw [newParentsFor]
              simp only [List.isEmpty_cons, Bool.false_eq_true, if_false]
              rw [remapParents]
              simp only [List.foldl, hl]
              rfl
      have hrec : walkAux W (chainAux (idx + 1) (some idx) fs)
          (m ++ [(idx, next)]) (some next) (next + 1) =
          expWalk (idx + 1) (some next) (next + 1) fs := by
        refine ih (idx + 1) (next + 1) (some idx) (some next)
          (m ++ [(idx, next)]) ?_ ?_ ?_ ?_
        · intro h; exact absurd h (by simp)
        · intro p hp
          rw [Option.some.injEq] at hp
          subst hp
          refine Or.inr ⟨?_, by simp⟩
          exact lookupMap_append_self m idx next (fun q hq => by
            have := hkeys q hq
            simp only [beq_eq_false_iff_ne, ne_eq]
            omega)
        · intro q hq
          rcases List.mem_append.mp hq with h | h
          · have := hkeys q h
            omega
          · simp only [List.mem_singleton] at h
            subst h
            omega
        · intro c hc
          exact hsub c (by rw [chainAux]; exact List.mem_cons_of_mem _ hc)
      simp only [chainAux, walkAux, expWalk, chainMsg_marker.2,
        Bool.false_eq_true, if_false]
      rw [hbase, hrec]

lemma expWalk_len (flags : List Bool) :
    ∀ idx last next, ((expWalk idx last next flags).1).length =
      (flags.filter (fun f => !f)).length := by
  induction flags with
  | nil => intro idx last next; rfl
  | cons f fs ih =>
    intro idx last next
    cases f with
    | true =>
      simp only [expWalk, List.filter, Bool.not_true]
      exact ih _ _ _
    | false =>
      simp only [expWalk, List.filter, Bool.not_false, List.length_cons, ih]

lemma expWalk_map_sha (flags : List Bool) :
    ∀ idx last next, ((expWalk idx last next flags).1).map (fun c => c.sha) =
      seqFrom next ((expWalk idx last next flags).1).length := by
  induction flags with
  | nil => intro idx last next; rfl
  | cons f fs ih =>
    intro idx last next
    cases f with
    | true => exact ih _ _ _
    | false =>
      simp only [expWalk, List.map_cons, List.length_cons, seqFrom]
      rw [ih]

lemma expWalk_last (flags : List Bool) :
    ∀ idx last next, (expWalk idx last next flags).2 =
      if ((expWalk idx last next flags).1).length = 0 then last
      else some (next + ((expWalk idx last next flags).1).length - 1) := by
  induction flags with
  | nil => intro idx last next; rfl
  | cons f fs ih =>
    intro idx last next
    cases f with
    | true => exact ih _ _ _
    | false =>
      simp only [expWalk, List.length_cons]
      rw [ih (idx + 1) (some next) (next + 1)]
      by_cases h : ((expWalk (idx + 1) (some next) (next + 1) fs).1).length = 0
      · rw [if_pos h, if_neg (by omega)]
        rw [h]
        simp
      · rw [if_neg h, if_neg (by omega)]
        congr 1
        omega

lemma expWalk_find (flags : List Bool) :
    ∀ idx last next i, i < ((expWalk idx last next flags).1).length →
      ∃ c, findCommit (expWalk idx last next flags).1 (next + i) = some c ∧
        c.parents = (if i = 0 then last.toList else [next + i - 1]) := by
  induction flags with
  | nil => intro idx last next i hi; exact absurd hi (by simp [expWalk])
  | cons f fs ih =>
    intro idx last next i hi
    cases f with
    | true => exact ih _ _ _ _ hi
    | false =>
      simp only [expWalk, List.length_cons] at hi ⊢
      cases i with
      | zero =>
        refine ⟨⟨next, chainMsg false, idx, last.toList, "a", "a"⟩, ?_, ?_⟩
        · simp [findCommit, List.find?]
        · simp
      | succ j =>
        have hj : j < ((expWalk (idx + 1) (some next) (next + 1) fs).1).length := by
          omega
        obtain ⟨c, hc, hp⟩ := ih (idx + 1) (some next) (next + 1) j hj
        refine ⟨c, ?_, ?_⟩
        · rw [findCommit, List.find?]
          rw [show ((⟨next, chainMsg false, idx, last.toList, "a", "a"⟩ :
            Commit).sha == next + (j + 1)) = false by
              simp only [beq_eq_false_iff_ne, ne_eq]; omega]
          rw [show next + (j + 1) = next + 1 + j by omega]
          exact hc
        · rw [hp]
          cases j with
          | zero => simp
          | succ j' =>
            rw [if_neg (by omega), if_neg (by omega)]
            congr 1
            omega

/-- Reachability descent over a recreated linear chain: from the commit
with sha `next + j - 1`, exactly the `j` most recently created commits are
reachable, newest first. -/
lemma reach_ladder (cs : List Commit) (next : Nat)
    (hfind : ∀ i, i < cs.length →
      ∃ c, findCommit cs (next + i) = some c ∧
        c.parents = (if i = 0 then ([] : List Nat) else [next + i - 1])) :
    ∀ j, j ≤ cs.length → 1 ≤ j →
      reachableIn cs j (next + j - 1) = (seqFrom next j).reverse := by
  intro j
  induction j with
  | zero => intro _ h; exact absurd h (by omega)
  | succ j ihj =>
    intro hle _
    obtain ⟨c, hc, hp⟩ := hfind j (by omega)
    cases j with
    | zero =>
      rw [show next + 1 - 1 = next + 0 by omega]
      simp only [reachableIn, hc, hp]
      simp [seqFrom]
    | succ j' =>
      rw [show next + (j' + 1 + 1) - 1 = next + (j' + 1) by omega]
      rw [reachableIn]
      rw [hc]
      show (next + (j' + 1)) :: c.parents.flatMap (reachableIn cs (j' + 1)) =
        (seqFrom next (j' + 1 + 1)).reverse
      rw [hp]
      rw [if_neg (by omega)]
      have hrec := ihj (by omega) (by omega)
      simp only [List.flatMap_cons, List.flatMap_nil, List.append_nil]
      rw [hrec]
      rw [seqFrom_snoc next (j' + 1)]
      simp

/-- C8 amended: over a *linear* fetched window of n commits — each commit's
sole parent the next older one — whose marked/real pattern is `flags`
(oldest first, k marked, at least one marked and at least one real),
cleanup reports `removedCommits = k`, recreates exactly n - k commits, and
the commits reachable from the new branch HEAD among the recreated history
are exactly those n - k recreated real commits. -/
theorem cleanup_linear_window_shrinkage (flags : List Bool) (db bn : String)
    (fb : Nat) (hreal : false ∈ flags) (hmark : true ∈ flags) :
    (cleanupRepoCommitsAutomatic (linWindow flags) true db bn fb).1.removedCommits
      = some ((flags.filter (fun f => f)).length) ∧
    (createdOf (cleanupRepoCommitsAutomatic (linWindow flags) true db bn
      fb).2).length = flags.length - (flags.filter (fun f => f)).length ∧
    (∃ top,
      (cleanupRepoCommitsAutomatic (linWindow flags) true db bn fb).1.newHead
        = some top ∧
      ∀ s, s ∈ reachableIn
          (createdOf (cleanupRepoCommitsAutomatic (linWindow flags) true db
            bn fb).2)
          (createdOf (cleanupRepoCommitsAutomatic (linWindow flags) true db
            bn fb).2).length top ↔
        s ∈ (createdOf (cleanupRepoCommitsAutomatic (linWindow flags) true db
          bn fb).2).map (fun c => c.sha)) := by
  obtain ⟨c0, rest, hW⟩ : ∃ c0 rest, linWindow flags = c0 :: rest := by
    cases h : linWindow flags with
    | nil =>
      have h1 : (linWindow flags).length = flags.length := by
        rw [linWindow, List.length_reverse, chainAux_length]
      rw [h] at h1
      have h2 : flags ≠ [] := List.ne_nil_of_mem hreal
      have h3 : 0 < flags.length := List.length_pos.mpr h2
      simp at h1
      omega
    | cons a b => exact ⟨a, b, rfl⟩
  have hkne : ((linWindow flags).filter
      (fun c => includesMarker c.message)).length =
      (flags.filter (fun f => f)).length := by
    rw [linWindow, List.filter_reverse, List.length_reverse,
      chainAux_filter_marked]
  have hkpos : 0 < (flags.filter (fun f => f)).length :=
    List.length_pos.mpr (List.ne_nil_of_mem
      (List.mem_filter.mpr ⟨hmark, rfl⟩))
  have hg : (((c0 :: rest).filter
      (fun c => includesMarker c.message)).length == 0) = false := by
    rw [← hW, hkne]
    simp only [beq_eq_false_iff_ne, ne_eq]
    omega
  have hwalkeq : walkAux (c0 :: rest) (c0 :: rest).reverse [] none fb =
      expWalk 0 none fb flags := by
    rw [← hW]
    rw [show (linWindow flags).reverse = chainAux 0 none flags by
      rw [linWindow, List.reverse_reverse]]
    refine walkAux_chain (linWindow flags) flags 0 fb none none []
      (fun _ => rfl) (fun p hp => absurd hp (by simp)) ?_ ?_
    · intro q hq
      exact absurd hq (List.not_mem_nil q)
    · intro c hc
      rw [linWindow]
      exact List.mem_reverse.mpr hc
  have hmlen : ((expWalk 0 none fb flags).1).length =
      (flags.filter (fun f => !f)).length := expWalk_len flags 0 none fb
  have hmpos : 0 < ((expWalk 0 none fb flags).1).length := by
    rw [hmlen]
    exact List.length_pos.mpr (List.ne_nil_of_mem
      (List.mem_filter.mpr ⟨hreal, rfl⟩))
  have hlast : (expWalk 0 none fb flags).2 =
      some (fb + ((expWalk 0 none fb flags).1).length - 1) := by
    rw [expWalk_last]
    rw [if_neg (by omega)]
  have hclean : cleanupRepoCommitsAutomatic (c0 :: rest) true db bn fb =
      (⟨"success", "rewrite",
        some (((c0 :: rest).filter (fun c => includesMarker c.message)).length),
        some (fb + ((expWalk 0 none fb flags).1).length - 1), none⟩,
       GitOp.createRef bn c0.sha ::
         ((expWalk 0 none fb flags).1.map GitOp.createCommit ++
          [GitOp.updateRef ("heads/" ++ db)
            (fb + ((expWalk 0 none fb flags).1).length - 1) true])) := by
    rw [cleanupRepoCommitsAutomatic.eq_def]
    simp only [hg, Bool.false_eq_true, if_false, Bool.not_true, hwalkeq, hlast]
  rw [hW, hclean]
  have hcreated : createdOf (GitOp.createRef bn c0.sha ::
      ((expWalk 0 none fb flags).1.map GitOp.createCommit ++
       [GitOp.updateRef ("heads/" ++ db)
         (fb + ((expWalk 0 none fb flags).1).length - 1) true])) =
      (expWalk 0 none fb flags).1 := createdOf_success_trace _ _ _ _ _ _
  rw [hcreated]
  refine ⟨?_, ?_, ?_⟩
  · rw [← hW, hkne]
  · rw [hmlen, filter_not_length]
  · refine ⟨fb + ((expWalk 0 none fb flags).1).length - 1, rfl, ?_⟩
    intro s
    have hfind : ∀ i, i < ((expWalk 0 none fb flags).1).length →
        ∃ c, findCommit (expWalk 0 none fb flags).1 (fb + i) = some c ∧
          c.parents = (if i = 0 then ([] : List Nat) else [fb + i - 1]) := by
      intro i hi
      obtain ⟨c, h1, h2⟩ := expWalk_find flags 0 none fb i hi
      exact ⟨c, h1, by simpa using h2⟩
    have hreach := reach_ladder (expWalk 0 none fb flags).1 fb hfind
      ((expWalk 0 none fb flags).1).length (le_refl _) (by omega)
    rw [hreach]
    rw [expWalk_map_sha]
    exact List.mem_reverse

/-- Witness for C8 amended: pattern real–marked–real (oldest first),
n = 3, k = 1. -/
theorem cleanup_linear_window_shrinkage_witness :
    (cleanupRepoCommitsAutomatic (linWindow [false, true, false]) true "main"
      "bk" 7).1.removedCommits = some 1 ∧
    (createdOf (cleanupRepoCommitsAutomatic (linWindow [false, true, false])
      true "main" "bk" 7).2).length = 2 ∧
    (∃ top,
      (cleanupRepoCommitsAutomatic (linWindow [false, true, false]) true
        "main" "bk" 7).1.newHead = some top ∧
      ∀ s, s ∈ reachableIn
          (createdOf (cleanupRepoCommitsAutomatic (linWindow
            [false, true, false]) true "main" "bk" 7).2)
          (createdOf (cleanupRepoCommitsAutomatic (linWindow
            [false, true, false]) true "main" "bk" 7).2).length top ↔
        s ∈ (createdOf (cleanupRepoCommitsAutomatic (linWindow
          [false, true, false]) true "main" "bk" 7).2).map (fun c => c.sha)) := by
  have h := cleanup_linear_window_shrinkage [false, true, false] "main" "bk" 7
    (by decide) (by decide)
  simpa using h

end GitPins
